import Mathlib

/-!
Shallow embedding of the file-persisted table store implemented in `src/db.rs`
(struct `Db`, struct `TableData` and the `impl Db` block), together with proofs
of the specified properties of its operations.

Modelling conventions:
* `serde_json::Value` is modelled by the inductive `Json` (JSON numbers are
  modelled as integers; no claim depends on non-integer numeric payloads).
* `BTreeMap<u32, Value>` is modelled as a key-sorted association list
  `List (Nat × Json)` with the ordered insert / remove / get operations below;
  `HashMap<String, TableData>` is modelled as an association list with
  replace-or-add insert (a hash map has no meaningful order, the list order
  is an artefact of the model).
* The backing file is modelled by its parsed contents (`Option Json`): string
  printing and parsing of a JSON document is `serde_json` library code, not
  code of this repository, so persistence is modelled at the level of the
  JSON document that `flush` writes.  The repository-specific part of the
  format — `{ "next_id": <uint>, "data": { "<decimal id>": <record>, ... } }`
  with decimal-string record keys (`u32` keys are printed with `to_string`,
  modelled by `Nat.repr`, and parsed back, modelled by `String.toNat?`) — is
  modelled faithfully.
* A `DynaResult` whose error can only come from file I/O is modelled as the
  plain result: the modelled file never fails.  A `.unwrap()` on a decode
  (deserialisation) failure is modelled as `Except.error ()`.
-/

namespace PoemStore

/-- Model of `serde_json::Value`: a JSON-like structured value. -/
inductive Json where
  | null : Json
  | bool (b : Bool) : Json
  | num (n : Int) : Json
  | str (s : String) : Json
  | arr (xs : List Json) : Json
  | obj (fields : List (String × Json)) : Json

/-- Model of `struct TableData { next_id: u32, data: BTreeMap<u32, Value> }`.
The `data` list is kept sorted by key (the `BTreeMap` order); `next_id` is a
mathematical natural (the `u32` counter never approaches overflow in any
specified behaviour). -/
structure TableData where
  next_id : Nat
  data : List (Nat × Json)

/-- Model of `struct Db { file: Arc<Mutex<File>>, tables: HashMap<String, TableData> }`.
`file` holds the parsed contents last written to (or read from) the backing
file, `none` for an absent or empty file. -/
structure Db where
  file : Option Json
  tables : List (String × TableData)

/-- Model of `BTreeMap::get`. -/
def btreeGet (d : List (Nat × Json)) (k : Nat) : Option Json :=
  match d with
  | [] => none
  | (k1, v1) :: rest => if k1 = k then some v1 else btreeGet rest k

/-- Model of `BTreeMap::insert`: replace the value at an existing key, or
insert at the ordered position. -/
def btreeInsert (d : List (Nat × Json)) (k : Nat) (v : Json) : List (Nat × Json) :=
  match d with
  | [] => [(k, v)]
  | (k1, v1) :: rest =>
    if k < k1 then (k, v) :: (k1, v1) :: rest
    else if k = k1 then (k, v) :: rest
    else (k1, v1) :: btreeInsert rest k v

/-- Model of `BTreeMap::remove` (the removed value, when present, is read off
with `btreeGet`). -/
def btreeRemove (d : List (Nat × Json)) (k : Nat) : List (Nat × Json) :=
  match d with
  | [] => []
  | (k1, v1) :: rest => if k1 = k then rest else (k1, v1) :: btreeRemove rest k

/-- Model of `HashMap::get` on the `tables` map. -/
def lookupTable (ts : List (String × TableData)) (name : String) : Option TableData :=
  match ts with
  | [] => none
  | (n, t) :: rest => if n = name then some t else lookupTable rest name

/-- Replace the entry at an existing key (the effect of mutating through
`HashMap::get_mut`). -/
def updateTable (ts : List (String × TableData)) (name : String) (td : TableData) :
    List (String × TableData) :=
  match ts with
  | [] => []
  | (n, t) :: rest =>
    if n = name then (n, td) :: rest else (n, t) :: updateTable rest name td

/-- Model of `HashMap::insert`: replace the value at an existing key, or add
the entry. -/
def insertTable (ts : List (String × TableData)) (name : String) (td : TableData) :
    List (String × TableData) :=
  if (lookupTable ts name).isSome then updateTable ts name td else ts ++ [(name, td)]

/-- Serialised form of one `TableData` (the derived `serde` serialisation):
`{ "next_id": <uint>, "data": { "<decimal id>": <record>, ... } }`.
Record keys are printed as decimal strings (`u32` formatting = `Nat.repr`). -/
def serializeTableData (t : TableData) : Json :=
  Json.obj [("next_id", Json.num (Int.ofNat t.next_id)),
            ("data", Json.obj (t.data.map fun p => (Nat.repr p.1, p.2)))]

/-- Serialised form of the whole `tables` mapping: a JSON object mapping table
name to serialised table, as written by `Db::flush`. -/
def serializeTables (ts : List (String × TableData)) : Json :=
  Json.obj (ts.map fun p => (p.1, serializeTableData p.2))

/-- First-match lookup in a JSON object's field list. -/
def objLookup (fs : List (String × Json)) (k : String) : Option Json :=
  match fs with
  | [] => none
  | (k1, v1) :: rest => if k1 = k then some v1 else objLookup rest k

/-- Parse the entries of a serialised `data` object: each key must be a
decimal string (`u32` deserialisation); any failure fails the whole parse. -/
def parseDataEntries (fs : List (String × Json)) : Option (List (Nat × Json)) :=
  match fs with
  | [] => some []
  | (k, v) :: rest =>
    match String.toNat? k with
    | none => none
    | some n => (parseDataEntries rest).map fun l => (n, v) :: l

/-- Deserialise one `TableData` from its JSON form: requires a `"next_id"`
non-negative integer field and a `"data"` object field whose keys parse as
integers; the parsed entries are inserted into a fresh `BTreeMap`. -/
def deserializeTableData (j : Json) : Option TableData :=
  match j with
  | Json.obj fs =>
    match objLookup fs "next_id", objLookup fs "data" with
    | some (Json.num n), some (Json.obj ds) =>
      if n < 0 then none
      else (parseDataEntries ds).map fun entries =>
        { next_id := n.toNat,
          data := entries.foldl (fun acc p => btreeInsert acc p.1 p.2) [] }
    | _, _ => none
  | _ => none

/-- Parse the entries of the top-level tables object. -/
def parseTableEntries (fs : List (String × Json)) : Option (List (String × TableData)) :=
  match fs with
  | [] => some []
  | (k, v) :: rest =>
    match deserializeTableData v with
    | none => none
    | some td => (parseTableEntries rest).map fun l => (k, td) :: l

/-- Deserialise the whole `tables` mapping from the file's JSON document, the
parsed entries being inserted into a fresh `HashMap`. -/
def deserializeTables (j : Json) : Option (List (String × TableData)) :=
  match j with
  | Json.obj fs =>
    (parseTableEntries fs).map fun entries =>
      entries.foldl (fun acc p => insertTable acc p.1 p.2) []
  | _ => none

/-- Model of `Db::init`: an absent or empty file yields an empty store; a
non-empty file must parse as the serialised `tables` mapping, and a parse
failure is a fatal initialisation error (`none`). -/
def Db.init (contents : Option Json) : Option Db :=
  match contents with
  | none => some { file := none, tables := [] }
  | some doc => (deserializeTables doc).map fun ts => { file := some doc, tables := ts }

/-- Model of `Db::flush`: serialise the entire `tables` mapping and replace
the backing file's contents with it. -/
def Db.flush (db : Db) : Db :=
  { db with file := some (serializeTables db.tables) }

/-- Model of `Db::add_table`. -/
def Db.add_table (db : Db) (table_name : String) (is_recreate : Bool) : Db :=
  if !is_recreate && (lookupTable db.tables table_name).isSome then db
  else
    Db.flush { db with
      tables := insertTable db.tables table_name { next_id := 1, data := [] } }

/-- Decode a list of stored values through the caller's decoder, mirroring
`.map(|x| serde_json::from_value::<T>(x).unwrap()).collect()`: any single
decode failure aborts (models the unrecoverable failure of the unwrap). -/
def decodeAll (dec : Json → Option α) : List Json → Option (List α)
  | [] => some []
  | v :: vs =>
    match dec v with
    | none => none
    | some a => (decodeAll dec vs).map fun l => a :: l

/-- Model of `Db::find_all::<T>`: `Except.error ()` models the unrecoverable
decode failure inside the store, `Except.ok none` the absent table, and
`Except.ok (some l)` the decoded records in key order. -/
def Db.find_all (db : Db) (dec : Json → Option α) (table_name : String) :
    Except Unit (Option (List α)) :=
  match lookupTable db.tables table_name with
  | some table =>
    match decodeAll dec (table.data.map Prod.snd) with
    | some l => Except.ok (some l)
    | none => Except.error ()
  | none => Except.ok none

/-- Model of `Db::find_by_id::<T>`: `Except.error ()` models the unrecoverable
decode failure inside the store; an absent table and an absent record both
yield `Except.ok none` (as in the source, where both are `None`). -/
def Db.find_by_id (db : Db) (dec : Json → Option α) (table_name : String) (id : Nat) :
    Except Unit (Option α) :=
  match lookupTable db.tables table_name with
  | some table =>
    match btreeGet table.data id with
    | some v =>
      match dec v with
      | some a => Except.ok (some a)
      | none => Except.error ()
    | none => Except.ok none
  | none => Except.ok none

/-- Model of `Db::get_increment_last_id`: read the table's counter,
post-increment it, flush, and return the pre-increment value; `none` when the
table does not exist (no state change in that case).  The counter is a `u32`
and the source increment `id + 1` wraps at `2^32` (release-build overflow
semantics), modelled by the explicit `% 4294967296`. -/
def Db.get_increment_last_id (db : Db) (table_name : String) : Db × Option Nat :=
  match lookupTable db.tables table_name with
  | some table =>
    let id := table.next_id
    (Db.flush { db with
       tables := updateTable db.tables table_name
         { table with next_id := (id + 1) % 4294967296 } },
     some id)
  | none => (db, none)

/-- Model of `Db::insert_or_update::<T>` with the caller's encoder `enc`
(models `serde_json::to_value`): insert or overwrite the record at `id`,
flush, and return the stored value; `none` when the table does not exist. -/
def Db.insert_or_update (db : Db) (table_name : String) (id : Nat)
    (enc : α → Json) (data : α) : Db × Option α :=
  match lookupTable db.tables table_name with
  | some table =>
    (Db.flush { db with
       tables := updateTable db.tables table_name
         { table with data := btreeInsert table.data id (enc data) } },
     some data)
  | none => (db, none)

/-- Model of `Db::delete_by_id`: remove the record at `id` (returning the
removed value, `none` when absent) and flush; when the table does not exist,
return `none` with no state change.  Note the return type `Option Json`
exactly as in the source: the table-not-found case and the record-absent case
both yield `none`. -/
def Db.delete_by_id (db : Db) (table_name : String) (id : Nat) : Db × Option Json :=
  match lookupTable db.tables table_name with
  | some table =>
    (Db.flush { db with
       tables := updateTable db.tables table_name
         { table with data := btreeRemove table.data id } },
     btreeGet table.data id)
  | none => (db, none)

/-- Model of `Db::delete_all`: clear the table's records (leaving `next_id`
untouched), flush, and return `true`; return `false` when the table does not
exist. -/
def Db.delete_all (db : Db) (table_name : String) : Db × Bool :=
  match lookupTable db.tables table_name with
  | some table =>
    (Db.flush { db with
       tables := updateTable db.tables table_name { table with data := [] } },
     true)
  | none => (db, false)

/-- Decimal digit characters of `n`, most significant first: the list of
characters produced by `Nat.repr` (proved below), used to reason about the
decimal record keys of the persisted format. -/
def decChars (n : Nat) : List Char :=
  if _h : n < 10 then [Nat.digitChar n]
  else decChars (n / 10) ++ [Nat.digitChar (n % 10)]
termination_by n
decreasing_by exact Nat.div_lt_self (by omega) (by omega)

/-- One store operation, for reasoning about sequences of operations. -/
inductive Op where
  | addTable (name : String) (recreate : Bool) : Op
  | nextId (name : String) : Op
  | upsert (name : String) (id : Nat) (v : Json) : Op
  | deleteById (name : String) (id : Nat) : Op
  | deleteAll (name : String) : Op

/-- The state transition of one store operation (outputs discarded). -/
def Db.step (db : Db) : Op → Db
  | Op.addTable n r => db.add_table n r
  | Op.nextId n => (db.get_increment_last_id n).1
  | Op.upsert n id v => (db.insert_or_update n id (fun x => x) v).1
  | Op.deleteById n id => (db.delete_by_id n id).1
  | Op.deleteAll n => (db.delete_all n).1

/-- Run a sequence of store operations. -/
def Db.run (db : Db) : List Op → Db
  | [] => db
  | op :: ops => (db.step op).run ops

/-- The ids issued for table `t` by a single operation (nonempty only for a
successful `get_increment_last_id` on `t`). -/
def issuedHere (db : Db) (t : String) : Op → List Nat
  | Op.nextId n => if n = t then ((db.get_increment_last_id n).2).toList else []
  | _ => []

/-- All ids issued for table `t` along a run of operations, in call order. -/
def runIssued (t : String) (db : Db) : List Op → List Nat
  | [] => []
  | op :: ops => issuedHere db t op ++ runIssued t (db.step op) ops

/-- Whether one operation is a `get_increment_last_id` call on table `t`
(`1`) or not (`0`). -/
def opNextIdCount (t : String) : Op → Nat
  | Op.nextId n => if n = t then 1 else 0
  | _ => 0

/-- How many `get_increment_last_id` calls on table `t` a sequence of
operations contains. -/
def countNextId (t : String) : List Op → Nat
  | [] => 0
  | op :: ops => opNextIdCount t op + countNextId t ops

/-- Run a sequence of `insert_or_update` calls at a fixed table and id. -/
def runUpserts (db : Db) (t : String) (id : Nat) : List Json → Db
  | [] => db
  | v :: vs => runUpserts (db.insert_or_update t id (fun x => x) v).1 t id vs

/-- Structural invariant of a table: the record list is sorted strictly by
key (the `BTreeMap` key order). -/
def TableData.WF (t : TableData) : Prop :=
  List.Pairwise (· < ·) (t.data.map Prod.fst)

/-- Structural invariant of a store: table names are distinct (`HashMap`
keys) and every table is well-formed.  It holds for every reachable store
state (established by `Db.init` and preserved by every operation; proved
below). -/
def Db.WF (db : Db) : Prop :=
  (db.tables.map Prod.fst).Nodup ∧ ∀ p ∈ db.tables, TableData.WF p.2

/-- Modelled from the spec: `Db::find_by_value` is called from
`src/auth/route.rs` (`login`, `register`) but its definition is not among the
provided sources.  Per the spec it is a linear scan over all records in id
order, keeping every record whose direct top-level field `field_name` equals
the string `field_value` (string-typed equality as used by the callers);
non-object records or records missing the field are excluded, and the result
is absent only when the table does not exist.  `fieldMatches` is its record
predicate: the record must be an object whose direct field `field_name` is a
string equal to `field_value`. -/
def fieldMatches (v : Json) (field_name field_value : String) : Bool :=
  match v with
  | Json.obj fs =>
    match objLookup fs field_name with
    | some (Json.str s) => s = field_value
    | _ => false
  | _ => false

/-- Modelled from the spec: the linear scan of `Db::find_by_value` itself
(see `fieldMatches` above for provenance): all records of the table in id
order, filtered by `fieldMatches`; `none` only when the table is missing. -/
def Db.find_by_value (db : Db) (table_name field_name field_value : String) :
    Option (List Json) :=
  match lookupTable db.tables table_name with
  | some table =>
    some ((table.data.map Prod.snd).filter fun v => fieldMatches v field_name field_value)
  | none => none

/-- A small concrete store used to instantiate the theorems: one table `"t"`
holding records at ids `1` and `3`, counter at `5`. -/
def sampleDb : Db :=
  { file := none,
    tables := [("t", { next_id := 5,
                       data := [(1, Json.str "a"), (3, Json.null)] })] }

/-- A concrete store whose table counter sits at the largest `u32` value
`4294967295`: such a state is init-reachable (the backing file may hold any
`u32` counter), and the next id allocation wraps the counter to `0`. -/
def maxDb : Db :=
  { file := none,
    tables := [("t", { next_id := 4294967295, data := [] })] }

/-- A caller-side decoder for string-shaped records (used to instantiate the
decode-failure theorems). -/
def decStr (v : Json) : Option String :=
  match v with
  | Json.str s => some s
  | _ => none

theorem digitChar_toNat : ∀ n < 10, (Nat.digitChar n).toNat = 48 + n := by decide

theorem digitChar_isDigit : ∀ n < 10, (Nat.digitChar n).isDigit = true := by decide

theorem decChars_ne_nil (n : Nat) : decChars n ≠ [] := by
  rw [decChars]
  split
  · simp
  · simp

theorem toDigitsCore_eq (fuel n : Nat) (ds : List Char) (h : n < fuel) :
    Nat.toDigitsCore 10 fuel n ds = decChars n ++ ds := by
  induction fuel generalizing n ds with
  | zero => omega
  | succ f ih =>
    rw [Nat.toDigitsCore]
    by_cases h10 : n < 10
    · have hz : n / 10 = 0 := Nat.div_eq_of_lt h10
      simp only [hz, if_pos]
      rw [decChars, dif_pos h10]
      have : n % 10 = n := Nat.mod_eq_of_lt h10
      rw [this]
      simp
    · have hne : n / 10 ≠ 0 := by omega
      simp only [hne, if_neg, if_false]
      have hlt : n / 10 < f := by
        have h1 : n / 10 < n := Nat.div_lt_self (by omega) (by omega)
        omega
      rw [ih (n / 10) (Nat.digitChar (n % 10) :: ds) hlt]
      conv_rhs => rw [decChars]
      rw [dif_neg h10]
      simp

theorem repr_eq_decChars (n : Nat) : Nat.repr n = (decChars n).asString := by
  rw [Nat.repr, Nat.toDigits, toDigitsCore_eq (n + 1) n [] (by omega)]
  simp

theorem decChars_all_digits (n : Nat) : ∀ c ∈ decChars n, c.isDigit := by
  induction n using Nat.strong_induction_on with
  | _ n ih =>
    rw [decChars]
    split
    · rename_i h10
      intro c hc
      simp only [List.mem_singleton] at hc
      subst hc
      exact digitChar_isDigit n h10
    · rename_i h10
      intro c hc
      simp only [List.mem_append, List.mem_singleton] at hc
      rcases hc with hc | hc
      · exact ih (n / 10) (Nat.div_lt_self (by omega) (by omega)) c hc
      · subst hc
        exact digitChar_isDigit (n % 10) (Nat.mod_lt _ (by omega))

theorem foldl_decChars (n : Nat) : ∀ a : Nat,
    List.foldl (fun acc c => acc * 10 + (c.toNat - 48)) a (decChars n)
      = a * 10 ^ (decChars n).length + n := by
  induction n using Nat.strong_induction_on with
  | _ n ih =>
    intro a
    rw [decChars]
    split
    · rename_i h10
      simp only [List.foldl_cons, List.foldl_nil, List.length_cons, List.length_nil]
      rw [digitChar_toNat n h10]
      have h2 : (10 : ℕ) ^ (0 + 1) = 10 := by norm_num
      rw [h2]
      omega
    · rename_i h10
      simp only [List.foldl_append, List.foldl_cons, List.foldl_nil, List.length_append,
        List.length_cons, List.length_nil]
      have hlt : n / 10 < n := Nat.div_lt_self (by omega) (by omega)
      rw [ih (n / 10) hlt a]
      rw [digitChar_toNat (n % 10) (Nat.mod_lt _ (by omega))]
      have h1 : 48 + n % 10 - 48 = n % 10 := by omega
      rw [h1, pow_succ]
      generalize (decChars (n / 10)).length = L
      generalize hP : (10 : ℕ) ^ L = P
      have hq : a * (P * 10) = a * P * 10 := by ring
      rw [hq]
      generalize a * P = Q
      omega

/-- The decimal record keys of the persisted format round-trip: parsing the
printed form of a key yields the key back. -/
theorem toNat?_repr (n : Nat) : String.toNat? (Nat.repr n) = some n := by
  rw [repr_eq_decChars, String.toNat?]
  have hnat : (decChars n).asString.isNat = true := by
    rw [String.isNat]
    simp only [Bool.and_eq_true]
    constructor
    · rw [Bool.not_eq_true', ← Bool.not_eq_true]
      intro he
      rw [String.isEmpty_iff] at he
      have : (decChars n) = [] := by
        have := congrArg String.data he
        simpa [List.asString] using this
      exact decChars_ne_nil n this
    · rw [String.all_eq]
      simp only [List.asString]
      rw [List.all_eq_true]
      intro c hc
      exact decChars_all_digits n c hc
  rw [if_pos hnat]
  rw [String.foldl_eq]
  simp only [List.asString]
  have h48 : Char.toNat '0' = 48 := by decide
  simp only [h48]
  rw [foldl_decChars n 0]
  simp

theorem lookupTable_eq_none (ts : List (String × TableData)) (name : String) :
    lookupTable ts name = none ↔ name ∉ ts.map Prod.fst := by
  induction ts with
  | nil => simp [lookupTable]
  | cons p rest ih =>
    obtain ⟨n, t⟩ := p
    simp only [lookupTable, List.map_cons, List.mem_cons]
    by_cases h : n = name
    · subst h
      simp
    · rw [if_neg h]
      rw [ih]
      constructor
      · intro hn hc
        rcases hc with hc | hc
        · exact h hc.symm
        · exact hn hc
      · intro hn hc
        exact hn (Or.inr hc)

theorem lookupTable_updateTable_self (ts : List (String × TableData))
    (name : String) (t td : TableData) (h : lookupTable ts name = some t) :
    lookupTable (updateTable ts name td) name = some td := by
  induction ts with
  | nil => simp [lookupTable] at h
  | cons p rest ih =>
    obtain ⟨n, t1⟩ := p
    simp only [lookupTable, updateTable] at *
    by_cases hn : n = name
    · rw [if_pos hn, lookupTable, if_pos hn]
    · rw [if_neg hn] at h
      rw [if_neg hn, lookupTable, if_neg hn]
      exact ih h

theorem lookupTable_updateTable_ne (ts : List (String × TableData))
    (n name : String) (td : TableData) (h : n ≠ name) :
    lookupTable (updateTable ts n td) name = lookupTable ts name := by
  induction ts with
  | nil => simp [lookupTable, updateTable]
  | cons p rest ih =>
    obtain ⟨n1, t1⟩ := p
    simp only [updateTable]
    by_cases hn : n1 = n
    · subst hn
      rw [if_pos rfl, lookupTable, lookupTable, if_neg (by exact fun hc => h hc),
        if_neg (by exact fun hc => h hc)]
    · rw [if_neg hn, lookupTable, lookupTable]
      by_cases h2 : n1 = name
      · rw [if_pos h2, if_pos h2]
      · rw [if_neg h2, if_neg h2]
        exact ih

theorem updateTable_of_none (ts : List (String × TableData)) (name : String)
    (td : TableData) (h : lookupTable ts name = none) :
    updateTable ts name td = ts := by
  induction ts with
  | nil => simp [updateTable]
  | cons p rest ih =>
    obtain ⟨n, t⟩ := p
    simp only [lookupTable] at h
    simp only [updateTable]
    by_cases hn : n = name
    · rw [if_pos hn] at h
      simp at h
    · rw [if_neg hn] at h
      rw [if_neg hn, ih h]

theorem insertTable_of_none (ts : List (String × TableData)) (name : String)
    (td : TableData) (h : lookupTable ts name = none) :
    insertTable ts name td = ts ++ [(name, td)] := by
  rw [insertTable, h]
  simp

theorem lookupTable_append_right (ts : List (String × TableData)) (name : String)
    (td : TableData) (h : lookupTable ts name = none) :
    lookupTable (ts ++ [(name, td)]) name = some td := by
  induction ts with
  | nil => simp [lookupTable]
  | cons p rest ih =>
    obtain ⟨n, t⟩ := p
    simp only [lookupTable] at h ⊢
    by_cases hn : n = name
    · rw [if_pos hn] at h
      simp at h
    · rw [if_neg hn] at h ⊢
      exact ih h

theorem lookupTable_insertTable_self (ts : List (String × TableData))
    (name : String) (td : TableData) :
    lookupTable (insertTable ts name td) name = some td := by
  rw [insertTable]
  by_cases h : (lookupTable ts name).isSome
  · rw [if_pos h]
    obtain ⟨t, ht⟩ := Option.isSome_iff_exists.mp h
    exact lookupTable_updateTable_self ts name t td ht
  · rw [if_neg h]
    exact lookupTable_append_right ts name td (Option.not_isSome_iff_eq_none.mp h)

theorem lookupTable_append_single_ne (ts : List (String × TableData))
    (n name : String) (td : TableData) (h : n ≠ name) :
    lookupTable (ts ++ [(n, td)]) name = lookupTable ts name := by
  induction ts with
  | nil => simp [lookupTable, h]
  | cons p rest ih =>
    obtain ⟨n1, t1⟩ := p
    simp only [lookupTable, List.cons_append]
    by_cases h1 : n1 = name
    · rw [if_pos h1, if_pos h1]
    · rw [if_neg h1, if_neg h1]
      exact ih

theorem lookupTable_insertTable_ne (ts : List (String × TableData))
    (n name : String) (td : TableData) (h : n ≠ name) :
    lookupTable (insertTable ts n td) name = lookupTable ts name := by
  rw [insertTable]
  by_cases hs : (lookupTable ts n).isSome
  · rw [if_pos hs]
    exact lookupTable_updateTable_ne ts n name td h
  · rw [if_neg hs]
    exact lookupTable_append_single_ne ts n name td h

theorem btreeGet_btreeInsert_self (d : List (Nat × Json)) (k : Nat) (v : Json) :
    btreeGet (btreeInsert d k v) k = some v := by
  induction d with
  | nil => simp [btreeInsert, btreeGet]
  | cons p rest ih =>
    obtain ⟨k1, v1⟩ := p
    simp only [btreeInsert]
    by_cases h1 : k < k1
    · rw [if_pos h1, btreeGet, if_pos rfl]
    · rw [if_neg h1]
      by_cases h2 : k = k1
      · rw [if_pos h2, btreeGet, if_pos rfl]
      · rw [if_neg h2, btreeGet, if_neg (fun hc => h2 hc.symm)]
        exact ih

theorem btreeGet_btreeInsert_ne (d : List (Nat × Json)) (k k2 : Nat) (v : Json)
    (h : k ≠ k2) : btreeGet (btreeInsert d k v) k2 = btreeGet d k2 := by
  induction d with
  | nil => simp [btreeInsert, btreeGet, h]
  | cons p rest ih =>
    obtain ⟨k1, v1⟩ := p
    simp only [btreeInsert]
    by_cases h1 : k < k1
    · rw [if_pos h1, btreeGet, if_neg h, btreeGet]
    · rw [if_neg h1]
      by_cases h2 : k = k1
      · subst h2
        rw [if_pos rfl, btreeGet, btreeGet, if_neg h, if_neg h]
      · rw [if_neg h2, btreeGet, btreeGet]
        by_cases h3 : k1 = k2
        · rw [if_pos h3, if_pos h3]
        · rw [if_neg h3, if_neg h3]
          exact ih

theorem btreeInsert_of_forall_lt (d : List (Nat × Json)) (k : Nat) (v : Json)
    (h : ∀ k2 ∈ d.map Prod.fst, k2 < k) : btreeInsert d k v = d ++ [(k, v)] := by
  induction d with
  | nil => simp [btreeInsert]
  | cons p rest ih =>
    obtain ⟨k1, v1⟩ := p
    simp only [List.map_cons, List.mem_cons] at h
    have hk1 : k1 < k := h k1 (Or.inl rfl)
    simp only [btreeInsert]
    rw [if_neg (by omega), if_neg (by omega), List.cons_append]
    congr 1
    exact ih fun k2 hk2 => h k2 (Or.inr hk2)

theorem foldl_btreeInsert_sorted (rest acc : List (Nat × Json))
    (h : List.Pairwise (· < ·) ((acc ++ rest).map Prod.fst)) :
    List.foldl (fun a p => btreeInsert a p.1 p.2) acc rest = acc ++ rest := by
  induction rest generalizing acc with
  | nil => simp
  | cons p rest2 ih =>
    obtain ⟨k, v⟩ := p
    simp only [List.foldl_cons]
    have hlt : ∀ k2 ∈ acc.map Prod.fst, k2 < k := by
      intro k2 hk2
      simp only [List.map_append, List.pairwise_append] at h
      exact h.2.2 k2 hk2 k (by simp)
    rw [btreeInsert_of_forall_lt acc k v hlt]
    rw [ih (acc ++ [(k, v)]) (by simpa using h)]
    simp

theorem foldl_insertTable_nodup (rest acc : List (String × TableData))
    (h : ((acc ++ rest).map Prod.fst).Nodup) :
    List.foldl (fun a p => insertTable a p.1 p.2) acc rest = acc ++ rest := by
  induction rest generalizing acc with
  | nil => simp
  | cons p rest2 ih =>
    obtain ⟨n, td⟩ := p
    simp only [List.foldl_cons]
    have hn : lookupTable acc n = none := by
      rw [lookupTable_eq_none]
      simp only [List.map_append, List.nodup_append] at h
      intro hc
      exact h.2.2 hc (by simp)
    rw [insertTable_of_none acc n td hn]
    rw [ih (acc ++ [(n, td)]) (by simpa using h)]
    simp

theorem parseDataEntries_serialized (l : List (Nat × Json)) :
    parseDataEntries (l.map fun p => (Nat.repr p.1, p.2)) = some l := by
  induction l with
  | nil => simp [parseDataEntries]
  | cons p rest ih =>
    obtain ⟨k, v⟩ := p
    simp only [List.map_cons, parseDataEntries, toNat?_repr k, ih]
    rfl

theorem deserializeTableData_serialized (t : TableData) (h : t.WF) :
    deserializeTableData (serializeTableData t) = some t := by
  have hs : List.foldl (fun a p => btreeInsert a p.1 p.2) [] t.data = t.data := by
    have := foldl_btreeInsert_sorted t.data [] (by simpa using h)
    simpa using this
  rw [serializeTableData, deserializeTableData]
  rw [objLookup, if_pos rfl]
  rw [objLookup, if_neg (by decide), objLookup, if_pos rfl]
  dsimp only
  rw [if_neg (show ¬ Int.ofNat t.next_id < 0 from not_lt.mpr (Int.ofNat_nonneg _))]
  rw [parseDataEntries_serialized t.data]
  show some { next_id := (Int.ofNat t.next_id).toNat,
              data := List.foldl (fun acc p => btreeInsert acc p.1 p.2) [] t.data } = some t
  rw [hs]
  cases t with
  | mk nid d => simp

theorem parseTableEntries_serialized (ts : List (String × TableData))
    (h : ∀ p ∈ ts, TableData.WF p.2) :
    parseTableEntries (ts.map fun p => (p.1, serializeTableData p.2)) = some ts := by
  induction ts with
  | nil => simp [parseTableEntries]
  | cons p rest ih =>
    obtain ⟨n, td⟩ := p
    simp only [List.map_cons, parseTableEntries]
    rw [deserializeTableData_serialized td (h (n, td) (by simp))]
    rw [ih fun q hq => h q (by simp [hq])]
    simp

theorem deserializeTables_serialized (ts : List (String × TableData))
    (h1 : (ts.map Prod.fst).Nodup) (h2 : ∀ p ∈ ts, TableData.WF p.2) :
    deserializeTables (serializeTables ts) = some ts := by
  rw [serializeTables, deserializeTables]
  rw [parseTableEntries_serialized ts h2]
  show some (List.foldl (fun a p => insertTable a p.1 p.2) [] ts) = some ts
  congr 1
  have := foldl_insertTable_nodup ts [] (by simpa using h1)
  simpa using this

/-- C7: calling `add_table` with `recreate = false` for a table name that
already exists returns success and is a complete no-op — the whole store
state, the tables mapping and the backing file alike, is unchanged, so in
particular no flush happens. -/
theorem add_table_existing_noop (db : Db) (name : String)
    (h : (lookupTable db.tables name).isSome) :
    db.add_table name false = db := by
  rw [Db.add_table]
  simp [h]

theorem add_table_existing_noop_witness :
    (lookupTable sampleDb.tables "t").isSome = true ∧
    sampleDb.add_table "t" false = sampleDb :=
  ⟨rfl, add_table_existing_noop sampleDb "t" rfl⟩

/-- C4 is refuted here: the claim asserts the stored counter always becomes
the returned value plus one, but the counter is a `u32` and the increment
wraps.  From the init-reachable state `maxDb` with counter `4294967295`
(`u32::MAX`), `get_increment_last_id` returns `4294967295` and stores `0` —
never `4294967296`, which a `u32` cannot hold. -/
theorem get_increment_last_id_wraps :
    (maxDb.get_increment_last_id "t").2 = some 4294967295 ∧
    lookupTable ((maxDb.get_increment_last_id "t").1).tables "t"
      = some { next_id := 0, data := [] } ∧
    lookupTable ((maxDb.get_increment_last_id "t").1).tables "t"
      ≠ some { next_id := 4294967295 + 1, data := [] } := by
  have hlook : lookupTable ((maxDb.get_increment_last_id "t").1).tables "t"
      = some { next_id := 0, data := [] } := rfl
  refine ⟨rfl, hlook, ?_⟩
  rw [hlook]
  intro hc
  have h3 : (0 : Nat) = 4294967295 + 1 :=
    congrArg (fun td => td.next_id) (Option.some.inj hc)
  omega

/-- C4 (amended): on an existing table, `get_increment_last_id` returns the
table's current counter and leaves the stored counter at that value plus one
reduced modulo `2^32` (the `u32` post-increment) — equal to the plain
successor whenever the increment does not overflow, i.e. whenever the counter
is below `u32::MAX`; on a missing table it returns the `none` sentinel and
changes no state at all. -/
theorem get_increment_last_id_spec (db : Db) (name : String) :
    (∀ tb, lookupTable db.tables name = some tb →
      (db.get_increment_last_id name).2 = some tb.next_id ∧
      lookupTable (db.get_increment_last_id name).1.tables name
        = some { tb with next_id := (tb.next_id + 1) % 4294967296 } ∧
      (tb.next_id + 1 < 4294967296 →
        lookupTable (db.get_increment_last_id name).1.tables name
          = some { tb with next_id := tb.next_id + 1 })) ∧
    (lookupTable db.tables name = none →
      db.get_increment_last_id name = (db, none)) := by
  constructor
  · intro tb htb
    have hmain : lookupTable (db.get_increment_last_id name).1.tables name
        = some { tb with next_id := (tb.next_id + 1) % 4294967296 } := by
      rw [Db.get_increment_last_id, htb]
      exact lookupTable_updateTable_self db.tables name tb _ htb
    refine ⟨by rw [Db.get_increment_last_id, htb], hmain, ?_⟩
    intro hlt
    rw [hmain, Nat.mod_eq_of_lt hlt]
  · intro h
    rw [Db.get_increment_last_id, h]

theorem get_increment_last_id_spec_witness :
    (sampleDb.get_increment_last_id "t").2 = some 5 ∧
    lookupTable (sampleDb.get_increment_last_id "t").1.tables "t"
      = some { next_id := 6, data := [(1, Json.str "a"), (3, Json.null)] } := by
  have h := (get_increment_last_id_spec sampleDb "t").1
    { next_id := 5, data := [(1, Json.str "a"), (3, Json.null)] } rfl
  exact ⟨h.1, h.2.2 (by decide)⟩

/-- C6: on an existing table, `delete_all` clears every record (a following
`find_all` yields the empty sequence, not absence), leaves the id counter
untouched (a following `get_increment_last_id` still returns the old counter
value, not `1`), flushes the store to the backing file, and returns `true`;
on a missing table it returns `false` (and changes nothing). -/
theorem delete_all_spec (db : Db) (name : String) :
    (∀ tb, lookupTable db.tables name = some tb →
      (db.delete_all name).2 = true ∧
      lookupTable (db.delete_all name).1.tables name = some { tb with data := [] } ∧
      (∀ (α : Type) (dec : Json → Option α),
        (db.delete_all name).1.find_all dec name = Except.ok (some [])) ∧
      ((db.delete_all name).1.get_increment_last_id name).2 = some tb.next_id ∧
      (db.delete_all name).1.file
        = some (serializeTables (db.delete_all name).1.tables)) ∧
    (lookupTable db.tables name = none → db.delete_all name = (db, false)) := by
  constructor
  · intro tb htb
    have hlook : lookupTable (db.delete_all name).1.tables name
        = some { tb with data := [] } := by
      rw [Db.delete_all, htb]
      exact lookupTable_updateTable_self db.tables name tb _ htb
    refine ⟨?_, hlook, ?_, ?_, ?_⟩
    · rw [Db.delete_all, htb]
    · intro α dec
      rw [Db.find_all, hlook]
      rfl
    · rw [Db.get_increment_last_id, hlook]
    · rw [Db.delete_all, htb]
      rfl
  · intro h
    rw [Db.delete_all, h]

theorem delete_all_spec_witness :
    (sampleDb.delete_all "t").2 = true ∧
    lookupTable (sampleDb.delete_all "t").1.tables "t" = some { next_id := 5, data := [] } ∧
    ((sampleDb.delete_all "t").1.get_increment_last_id "t").2 = some 5 := by
  have h := (delete_all_spec sampleDb "t").1
    { next_id := 5, data := [(1, Json.str "a"), (3, Json.null)] } rfl
  exact ⟨h.1, h.2.1, h.2.2.2.1⟩

/-- C1 is refuted here: the claim asserts the table-not-found outcome is
distinguishable from the record-was-absent outcome, but `delete_by_id`
returns the same value `none` in both cases.  In `sampleDb` the table `"t"`
exists and id `2` is absent; deleting it yields `none`, exactly what deleting
from the nonexistent table `"u"` yields. -/
theorem delete_by_id_not_distinguishable :
    (lookupTable sampleDb.tables "t").isSome = true ∧
    (sampleDb.delete_by_id "t" 2).2 = none ∧
    (lookupTable sampleDb.tables "u").isSome = false ∧
    (sampleDb.delete_by_id "u" 2).2 = none :=
  ⟨rfl, rfl, rfl, rfl⟩

/-- C1 (amended): on an existing table, `delete_by_id` removes the record at
the id when present, flushes unconditionally (even when nothing was removed),
and returns the removed value, `none` when the record was absent; on a
missing table it returns `none` and changes nothing.  The record-absent and
table-not-found outcomes are the same value `none` and are therefore not
distinguishable by the caller. -/
theorem delete_by_id_spec (db : Db) (name : String) (id : Nat) :
    (∀ tb, lookupTable db.tables name = some tb →
      (db.delete_by_id name id).2 = btreeGet tb.data id ∧
      lookupTable (db.delete_by_id name id).1.tables name
        = some { tb with data := btreeRemove tb.data id } ∧
      (db.delete_by_id name id).1.file
        = some (serializeTables (db.delete_by_id name id).1.tables)) ∧
    (lookupTable db.tables name = none → db.delete_by_id name id = (db, none)) := by
  constructor
  · intro tb htb
    refine ⟨?_, ?_, ?_⟩
    · rw [Db.delete_by_id, htb]
    · rw [Db.delete_by_id, htb]
      exact lookupTable_updateTable_self db.tables name tb _ htb
    · rw [Db.delete_by_id, htb]
      rfl
  · intro h
    rw [Db.delete_by_id, h]

theorem delete_by_id_spec_witness :
    (sampleDb.delete_by_id "t" 1).2 = some (Json.str "a") ∧
    lookupTable (sampleDb.delete_by_id "t" 1).1.tables "t"
      = some { next_id := 5, data := [(3, Json.null)] } := by
  have h := (delete_by_id_spec sampleDb "t" 1).1
    { next_id := 5, data := [(1, Json.str "a"), (3, Json.null)] } rfl
  exact ⟨h.1, h.2.1⟩

/-- When the table exists and no wrap occurs among the first `m` counter
values, the first `m` ids issued by `k ≥ m` consecutive
`get_increment_last_id` calls are exactly `next_id, next_id + 1, …,
next_id + m - 1`. -/
theorem runIssued_replicate_prefix (t : String) (m : Nat) :
    ∀ (k : Nat) (db : Db) (tb : TableData), m ≤ k →
    lookupTable db.tables t = some tb →
    tb.next_id + m ≤ 4294967296 →
    ∃ rest, runIssued t db (List.replicate k (Op.nextId t))
      = List.range' tb.next_id m ++ rest := by
  induction m with
  | zero =>
    intro k db tb _ _ _
    exact ⟨runIssued t db (List.replicate k (Op.nextId t)), by simp⟩
  | succ m2 ih =>
    intro k db tb hmk h hbound
    cases k with
    | zero => omega
    | succ k2 =>
      rw [List.replicate_succ]
      have h1 : issuedHere db t (Op.nextId t) = [tb.next_id] := by
        rw [issuedHere, if_pos rfl, Db.get_increment_last_id, h]
        rfl
      have h2 : lookupTable (db.step (Op.nextId t)).tables t
          = some { tb with next_id := (tb.next_id + 1) % 4294967296 } := by
        show lookupTable (db.get_increment_last_id t).1.tables t = _
        rw [Db.get_increment_last_id, h]
        exact lookupTable_updateTable_self db.tables t tb _ h
      by_cases hm0 : m2 = 0
      · subst hm0
        refine ⟨runIssued t (db.step (Op.nextId t)) (List.replicate k2 (Op.nextId t)), ?_⟩
        show issuedHere db t (Op.nextId t)
            ++ runIssued t (db.step (Op.nextId t)) (List.replicate k2 (Op.nextId t))
          = List.range' tb.next_id 1 ++ _
        rw [h1]
        rfl
      · have hlt : tb.next_id + 1 < 4294967296 := by omega
        have hmod : (tb.next_id + 1) % 4294967296 = tb.next_id + 1 :=
          Nat.mod_eq_of_lt hlt
        rw [hmod] at h2
        obtain ⟨rest, hrest⟩ := ih k2 (db.step (Op.nextId t))
          { tb with next_id := tb.next_id + 1 } (by omega) h2
          (by show tb.next_id + 1 + m2 ≤ 4294967296; omega)
        refine ⟨rest, ?_⟩
        show issuedHere db t (Op.nextId t)
            ++ runIssued t (db.step (Op.nextId t)) (List.replicate k2 (Op.nextId t))
          = List.range' tb.next_id (m2 + 1) ++ rest
        rw [h1, hrest, List.range'_succ]
        show tb.next_id :: (List.range' (tb.next_id + 1) m2 ++ rest)
          = (tb.next_id :: List.range' (tb.next_id + 1) m2) ++ rest
        simp

/-- C10: recreating an existing table (`add_table` with `recreate = true`)
resets its counter to `1` and its records to empty, and the ids issued for
the table before the recreation are issued again afterwards: every previously
issued id `i` (necessarily a `u32` value, `i < 2^32`) satisfies
`1 ≤ i < nextId`, and running `nextId` calls after the recreation issues
exactly `1, 2, 3, …` again, so the never-reuse guarantee holds only within
one incarnation of a table. -/
theorem add_table_recreate_resets (db : Db) (name : String) (tb : TableData)
    (h : lookupTable db.tables name = some tb) :
    lookupTable (db.add_table name true).tables name = some { next_id := 1, data := [] } ∧
    ((db.add_table name true).get_increment_last_id name).2 = some 1 ∧
    ∀ i, 1 ≤ i → i < tb.next_id → i < 4294967296 →
      i ∈ runIssued name (db.add_table name true)
        (List.replicate tb.next_id (Op.nextId name)) := by
  have hfresh : lookupTable (db.add_table name true).tables name
      = some { next_id := 1, data := [] } := by
    rw [Db.add_table]
    simp only [Bool.not_true, Bool.false_and, if_false]
    exact lookupTable_insertTable_self db.tables name _
  refine ⟨hfresh, ?_, ?_⟩
  · rw [Db.get_increment_last_id, hfresh]
  · intro i h1 h2 h3
    obtain ⟨rest, hrest⟩ := runIssued_replicate_prefix name i tb.next_id
      (db.add_table name true) { next_id := 1, data := [] } (by omega) hfresh
      (by show 1 + i ≤ 4294967296; omega)
    rw [hrest]
    apply List.mem_append_left
    show i ∈ List.range' 1 i
    rw [List.mem_range'_1]
    omega

theorem add_table_recreate_resets_witness :
    lookupTable (sampleDb.add_table "t" true).tables "t"
      = some { next_id := 1, data := [] } ∧
    ((sampleDb.add_table "t" true).get_increment_last_id "t").2 = some 1 ∧
    ∀ i, 1 ≤ i → i < 5 → i < 4294967296 →
      i ∈ runIssued "t" (sampleDb.add_table "t" true)
        (List.replicate 5 (Op.nextId "t")) :=
  add_table_recreate_resets sampleDb "t"
    { next_id := 5, data := [(1, Json.str "a"), (3, Json.null)] } rfl

theorem runUpserts_lookup (t : String) (id : Nat) (vs : List Json) :
    ∀ (db : Db) (tb : TableData), lookupTable db.tables t = some tb →
    ∀ hvs : vs ≠ [],
    ∃ tb2, lookupTable (runUpserts db t id vs).tables t = some tb2 ∧
      btreeGet tb2.data id = some (vs.getLast hvs) := by
  induction vs with
  | nil => intro db tb _ hvs; exact absurd rfl hvs
  | cons v rest ih =>
    intro db tb h hvs
    have hstep : lookupTable (db.insert_or_update t id (fun x => x) v).1.tables t
        = some { tb with data := btreeInsert tb.data id v } := by
      rw [Db.insert_or_update, h]
      exact lookupTable_updateTable_self db.tables t tb _ h
    cases rest with
    | nil =>
      exact ⟨{ tb with data := btreeInsert tb.data id v }, hstep,
        btreeGet_btreeInsert_self tb.data id v⟩
    | cons w rest2 =>
      have hne : w :: rest2 ≠ [] := by simp
      obtain ⟨tb2, h1, h2⟩ := ih (db.insert_or_update t id (fun x => x) v).1
        { tb with data := btreeInsert tb.data id v } hstep hne
      refine ⟨tb2, h1, ?_⟩
      rw [h2]
      exact congrArg some (List.getLast_cons hne).symm

/-- C8: for an existing table and any nonempty sequence of `insert_or_update`
calls at the same id, a following `find_by_id` at that id returns the value
of the most recent call — each upsert replaces the prior record wholesale
(last-write-wins). -/
theorem upsert_last_write_wins (db : Db) (t : String) (id : Nat) (vs : List Json)
    (tb : TableData) (h : lookupTable db.tables t = some tb) (hvs : vs ≠ []) :
    (runUpserts db t id vs).find_by_id some t id
      = Except.ok (some (vs.getLast hvs)) := by
  obtain ⟨tb2, h1, h2⟩ := runUpserts_lookup t id vs db tb h hvs
  simp only [Db.find_by_id, h1, h2]

theorem upsert_last_write_wins_witness :
    (runUpserts sampleDb "t" 1 [Json.str "x", Json.str "y", Json.str "z"]).find_by_id
        some "t" 1
      = Except.ok (some (Json.str "z")) := by
  have h := upsert_last_write_wins sampleDb "t" 1 [Json.str "x", Json.str "y", Json.str "z"]
    { next_id := 5, data := [(1, Json.str "a"), (3, Json.null)] } rfl (by simp)
  simpa using h

theorem decodeAll_eq_none_iff {α : Type} (dec : Json → Option α) (vs : List Json) :
    decodeAll dec vs = none ↔ ∃ v ∈ vs, dec v = none := by
  induction vs with
  | nil => simp [decodeAll]
  | cons v rest ih =>
    rw [decodeAll]
    cases hv : dec v with
    | none => simp [hv]
    | some a =>
      cases hr : decodeAll dec rest with
      | none =>
        simp only [hr]
        obtain ⟨w, hw1, hw2⟩ := ih.mp hr
        exact iff_of_true rfl ⟨w, by simp [hw1], hw2⟩
      | some l =>
        simp only [hr]
        constructor
        · intro hc
          simp at hc
        · intro ⟨w, hw1, hw2⟩
          rcases List.mem_cons.mp hw1 with hw | hw
          · subst hw
            rw [hv] at hw2
            simp at hw2
          · have hn : decodeAll dec rest = none := ih.mpr ⟨w, hw, hw2⟩
            rw [hr] at hn
            simp at hn

/-- C9: with an existing table, the lookup operations are total only when the
stored records decode into the caller's requested shape: `find_all` fails
with the in-store unrecoverable decode failure exactly when some stored
record does not decode (and returns all decoded records otherwise), and
`find_by_id` fails in the same way at any id whose stored record does not
decode (and returns the decoded record when it does) — the failure is inside
the store, not an error value for the caller. -/
theorem find_decode_contract {α : Type} (db : Db) (name : String) (tb : TableData)
    (h : lookupTable db.tables name = some tb) (dec : Json → Option α) :
    (db.find_all dec name = Except.error ()
       ↔ ∃ v ∈ tb.data.map Prod.snd, dec v = none) ∧
    ((∀ v ∈ tb.data.map Prod.snd, dec v ≠ none) →
       ∃ l, decodeAll dec (tb.data.map Prod.snd) = some l ∧
         db.find_all dec name = Except.ok (some l)) ∧
    (∀ id v, btreeGet tb.data id = some v → dec v = none →
       db.find_by_id dec name id = Except.error ()) ∧
    (∀ id v a, btreeGet tb.data id = some v → dec v = some a →
       db.find_by_id dec name id = Except.ok (some a)) := by
  refine ⟨?_, ?_, ?_, ?_⟩
  · cases hd : decodeAll dec (tb.data.map Prod.snd) with
    | none =>
      simp only [Db.find_all, h, hd]
      exact iff_of_true trivial ((decodeAll_eq_none_iff dec _).mp hd)
    | some l =>
      simp only [Db.find_all, h, hd]
      constructor
      · intro hc
        simp at hc
      · intro he
        have hn := (decodeAll_eq_none_iff dec _).mpr he
        rw [hd] at hn
        simp at hn
  · intro hall
    cases hd : decodeAll dec (tb.data.map Prod.snd) with
    | none =>
      obtain ⟨v, hv1, hv2⟩ := (decodeAll_eq_none_iff dec _).mp hd
      exact absurd hv2 (hall v hv1)
    | some l =>
      refine ⟨l, rfl, ?_⟩
      simp only [Db.find_all, h, hd]
  · intro id v hget hdec
    simp only [Db.find_by_id, h, hget, hdec]
  · intro id v a hget hdec
    simp only [Db.find_by_id, h, hget, hdec]

theorem find_decode_contract_witness :
    sampleDb.find_all decStr "t" = Except.error () ∧
    sampleDb.find_by_id decStr "t" 3 = Except.error () ∧
    sampleDb.find_by_id decStr "t" 1 = Except.ok (some "a") := by
  have h := find_decode_contract sampleDb "t"
    { next_id := 5, data := [(1, Json.str "a"), (3, Json.null)] } rfl decStr
  refine ⟨?_, ?_, ?_⟩
  · exact h.1.mpr ⟨Json.null, by simp, rfl⟩
  · exact h.2.2.1 3 Json.null rfl rfl
  · exact h.2.2.2 1 (Json.str "a") "a" rfl rfl

/-- C2: for every store state satisfying the structural invariant `Db.WF`
(which holds of every reachable state — established by `Db.init` and
preserved by every operation, see `wf_init` and `wf_step`), re-initialising
from the file contents written by `flush` succeeds and reconstructs the
identical `tables` mapping, so `find_all` and `find_by_id` answer identically
to the original store for every table, id and decoder: round-trip fidelity of
the persisted form. -/
theorem flush_init_round_trip (db : Db) (h : db.WF) :
    ∃ db2, Db.init (db.flush).file = some db2 ∧
      db2.tables = db.tables ∧
      (∀ (α : Type) (dec : Json → Option α) (name : String),
        db2.find_all dec name = db.find_all dec name) ∧
      (∀ (α : Type) (dec : Json → Option α) (name : String) (id : Nat),
        db2.find_by_id dec name id = db.find_by_id dec name id) := by
  obtain ⟨h1, h2⟩ := h
  refine ⟨{ file := some (serializeTables db.tables), tables := db.tables },
    ?_, rfl, fun α dec name => rfl, fun α dec name id => rfl⟩
  show Db.init (some (serializeTables db.tables)) = _
  simp only [Db.init]
  rw [deserializeTables_serialized db.tables h1 h2]
  rfl

theorem sampleDb_wf : sampleDb.WF := by
  constructor
  · show (["t"] : List String).Nodup
    simp
  · intro p hp
    show TableData.WF p.2
    have : p = ("t", { next_id := 5, data := [(1, Json.str "a"), (3, Json.null)] }) := by
      simpa [sampleDb] using hp
    subst this
    show List.Pairwise (· < ·) ([1, 3] : List Nat)
    simp

theorem flush_init_round_trip_witness :
    sampleDb.WF ∧
    ∃ db2, Db.init (sampleDb.flush).file = some db2 ∧
      db2.tables = sampleDb.tables ∧
      (∀ (α : Type) (dec : Json → Option α) (name : String),
        db2.find_all dec name = sampleDb.find_all dec name) ∧
      (∀ (α : Type) (dec : Json → Option α) (name : String) (id : Nat),
        db2.find_by_id dec name id = sampleDb.find_by_id dec name id) :=
  ⟨sampleDb_wf, flush_init_round_trip sampleDb sampleDb_wf⟩

/-- C5: `find_by_value` returns absence exactly when the table does not
exist; on an existing table it returns (never absence) precisely the records
whose direct top-level field equals the given string value — formally the
in-order filter of the record list by `fieldMatches`, so a record is in the
result iff it is a stored record satisfying the predicate, the matching
records keep their ascending id order (their ids are pairwise increasing
under the table invariant), and the result is the empty sequence when no
record matches. -/
theorem find_by_value_spec (db : Db) (t fname fval : String) :
    (db.find_by_value t fname fval = none ↔ lookupTable db.tables t = none) ∧
    (∀ tb, lookupTable db.tables t = some tb →
      db.find_by_value t fname fval
          = some ((tb.data.filter fun p => fieldMatches p.2 fname fval).map Prod.snd) ∧
      (∀ v, v ∈ (tb.data.filter fun p => fieldMatches p.2 fname fval).map Prod.snd ↔
        (v ∈ tb.data.map Prod.snd ∧ fieldMatches v fname fval = true)) ∧
      (tb.WF → List.Pairwise (· < ·)
        ((tb.data.filter fun p => fieldMatches p.2 fname fval).map Prod.fst)) ∧
      ((∀ v ∈ tb.data.map Prod.snd, fieldMatches v fname fval = false) →
        db.find_by_value t fname fval = some [])) := by
  constructor
  · cases hl : lookupTable db.tables t with
    | some tb =>
      rw [Db.find_by_value, hl]
      simp
    | none =>
      rw [Db.find_by_value, hl]
      simp
  · intro tb htb
    have heq : db.find_by_value t fname fval
        = some ((tb.data.filter fun p => fieldMatches p.2 fname fval).map Prod.snd) := by
      rw [Db.find_by_value, htb]
      show some ((tb.data.map Prod.snd).filter fun v => fieldMatches v fname fval) = _
      rw [List.filter_map]
      rfl
    refine ⟨heq, ?_, ?_, ?_⟩
    · intro v
      constructor
      · intro hv
        obtain ⟨p, hp1, hp2⟩ := List.mem_map.mp hv
        have hp3 := List.mem_filter.mp hp1
        subst hp2
        exact ⟨List.mem_map_of_mem Prod.snd hp3.1, hp3.2⟩
      · intro ⟨hv1, hv2⟩
        obtain ⟨p, hp1, hp2⟩ := List.mem_map.mp hv1
        refine List.mem_map.mpr ⟨p, List.mem_filter.mpr ⟨hp1, ?_⟩, hp2⟩
        rw [hp2]
        exact hv2
    · intro hwf
      exact List.Pairwise.sublist ((List.filter_sublist tb.data).map Prod.fst) hwf
    · intro hnone
      rw [heq]
      have : tb.data.filter (fun p => fieldMatches p.2 fname fval) = [] := by
        rw [List.filter_eq_nil_iff]
        intro p hp
        have := hnone p.2 (List.mem_map_of_mem Prod.snd hp)
        simp [this]
      rw [this]
      rfl

theorem find_by_value_spec_witness :
    sampleDb.find_by_value "t" "f" "x"
        = some ((([(1, Json.str "a"), (3, Json.null)] : List (Nat × Json)).filter
            fun p => fieldMatches p.2 "f" "x").map Prod.snd) ∧
    ((∀ v ∈ ([(1, Json.str "a"), (3, Json.null)] : List (Nat × Json)).map Prod.snd,
        fieldMatches v "f" "x" = false) →
      sampleDb.find_by_value "t" "f" "x" = some []) := by
  have h := (find_by_value_spec sampleDb "t" "f" "x").2
    { next_id := 5, data := [(1, Json.str "a"), (3, Json.null)] } rfl
  exact ⟨h.1, h.2.2.2⟩

theorem step_invariant (db : Db) (t : String) (tb : TableData) (op : Op)
    (hop : op ≠ Op.addTable t true) (h : lookupTable db.tables t = some tb)
    (hnw : tb.next_id + opNextIdCount t op < 4294967296) :
    ∃ tb2, lookupTable (db.step op).tables t = some tb2 ∧
      tb2.next_id = tb.next_id + opNextIdCount t op ∧
      (issuedHere db t op = [] ∨
        (issuedHere db t op = [tb.next_id] ∧ opNextIdCount t op = 1)) := by
  cases op with
  | addTable n r =>
    refine ⟨tb, ?_, by show tb.next_id = tb.next_id + 0; omega, Or.inl rfl⟩
    show lookupTable (db.add_table n r).tables t = some tb
    by_cases hn : n = t
    · subst hn
      cases r with
      | true => exact absurd rfl hop
      | false =>
        rw [Db.add_table]
        have : (lookupTable db.tables n).isSome := by rw [h]; rfl
        simp only [Bool.not_false, Bool.true_and, this, if_pos]
        exact h
    · rw [Db.add_table]
      by_cases hcond : (!r && (lookupTable db.tables n).isSome) = true
      · rw [if_pos hcond]
        exact h
      · rw [if_neg hcond]
        show lookupTable (insertTable db.tables n _) t = some tb
        rw [lookupTable_insertTable_ne db.tables n t _ hn]
        exact h
  | nextId n =>
    by_cases hn : n = t
    · subst hn
      have hone : opNextIdCount n (Op.nextId n) = 1 := by
        show (if n = n then 1 else 0) = 1
        rw [if_pos rfl]
      have hb : tb.next_id + 1 < 4294967296 := by
        rw [hone] at hnw
        exact hnw
      refine ⟨{ tb with next_id := (tb.next_id + 1) % 4294967296 }, ?_, ?_, Or.inr ⟨?_, hone⟩⟩
      · show lookupTable (db.get_increment_last_id n).1.tables n = _
        rw [Db.get_increment_last_id, h]
        exact lookupTable_updateTable_self db.tables n tb _ h
      · show (tb.next_id + 1) % 4294967296 = tb.next_id + opNextIdCount n (Op.nextId n)
        rw [hone, Nat.mod_eq_of_lt hb]
      · show (if n = n then ((db.get_increment_last_id n).2).toList else []) = _
        rw [if_pos rfl, Db.get_increment_last_id, h]
        rfl
    · have hiss : issuedHere db t (Op.nextId n) = [] := by
        show (if n = t then ((db.get_increment_last_id n).2).toList else []) = []
        rw [if_neg hn]
      have hzero : opNextIdCount t (Op.nextId n) = 0 := by
        show (if n = t then 1 else 0) = 0
        rw [if_neg hn]
      refine ⟨tb, ?_, by rw [hzero]; omega, Or.inl hiss⟩
      show lookupTable (db.get_increment_last_id n).1.tables t = some tb
      rw [Db.get_increment_last_id]
      cases hl : lookupTable db.tables n with
      | some tbn =>
        show lookupTable (updateTable db.tables n _) t = some tb
        rw [lookupTable_updateTable_ne db.tables n t _ hn]
        exact h
      | none => exact h
  | upsert n id v =>
    by_cases hn : n = t
    · subst hn
      refine ⟨{ tb with data := btreeInsert tb.data id v }, ?_,
        by show tb.next_id = tb.next_id + 0; omega, Or.inl rfl⟩
      show lookupTable (db.insert_or_update n id (fun x => x) v).1.tables n = _
      rw [Db.insert_or_update, h]
      exact lookupTable_updateTable_self db.tables n tb _ h
    · refine ⟨tb, ?_, by show tb.next_id = tb.next_id + 0; omega, Or.inl rfl⟩
      show lookupTable (db.insert_or_update n id (fun x => x) v).1.tables t = some tb
      rw [Db.insert_or_update]
      cases hl : lookupTable db.tables n with
      | some tbn =>
        show lookupTable (updateTable db.tables n _) t = some tb
        rw [lookupTable_updateTable_ne db.tables n t _ hn]
        exact h
      | none => exact h
  | deleteById n id =>
    by_cases hn : n = t
    · subst hn
      refine ⟨{ tb with data := btreeRemove tb.data id }, ?_,
        by show tb.next_id = tb.next_id + 0; omega, Or.inl rfl⟩
      show lookupTable (db.delete_by_id n id).1.tables n = _
      rw [Db.delete_by_id, h]
      exact lookupTable_updateTable_self db.tables n tb _ h
    · refine ⟨tb, ?_, by show tb.next_id = tb.next_id + 0; omega, Or.inl rfl⟩
      show lookupTable (db.delete_by_id n id).1.tables t = some tb
      rw [Db.delete_by_id]
      cases hl : lookupTable db.tables n with
      | some tbn =>
        show lookupTable (updateTable db.tables n _) t = some tb
        rw [lookupTable_updateTable_ne db.tables n t _ hn]
        exact h
      | none => exact h
  | deleteAll n =>
    by_cases hn : n = t
    · subst hn
      refine ⟨{ tb with data := [] }, ?_,
        by show tb.next_id = tb.next_id + 0; omega, Or.inl rfl⟩
      show lookupTable (db.delete_all n).1.tables n = _
      rw [Db.delete_all, h]
      exact lookupTable_updateTable_self db.tables n tb _ h
    · refine ⟨tb, ?_, by show tb.next_id = tb.next_id + 0; omega, Or.inl rfl⟩
      show lookupTable (db.delete_all n).1.tables t = some tb
      rw [Db.delete_all]
      cases hl : lookupTable db.tables n with
      | some tbn =>
        show lookupTable (updateTable db.tables n _) t = some tb
        rw [lookupTable_updateTable_ne db.tables n t _ hn]
        exact h
      | none => exact h

theorem run_invariant (t : String) (ops : List Op) :
    ∀ (db : Db) (tb : TableData),
    (∀ op ∈ ops, op ≠ Op.addTable t true) →
    lookupTable db.tables t = some tb →
    tb.next_id + countNextId t ops < 4294967296 →
    ∃ tb2, lookupTable (db.run ops).tables t = some tb2 ∧
      tb2.next_id = tb.next_id + countNextId t ops ∧
      List.Pairwise (· < ·) (runIssued t db ops) ∧
      ∀ i ∈ runIssued t db ops, tb.next_id ≤ i ∧ i < tb2.next_id := by
  induction ops with
  | nil =>
    intro db tb _ h _
    exact ⟨tb, h, by show tb.next_id = tb.next_id + 0; omega,
      by show List.Pairwise _ []; simp,
      by show ∀ i ∈ ([] : List Nat), _; simp⟩
  | cons op ops2 ih =>
    intro db tb hops h hnw
    have hcount : countNextId t (op :: ops2)
        = opNextIdCount t op + countNextId t ops2 := rfl
    obtain ⟨tb1, hs1, hs2, hs3⟩ := step_invariant db t tb op (hops op (by simp)) h
      (by omega)
    obtain ⟨tb2, hr1, hr2, hr3, hr4⟩ := ih (db.step op) tb1
      (fun o ho => hops o (by simp [ho])) hs1 (by omega)
    have hiss : runIssued t db (op :: ops2)
        = issuedHere db t op ++ runIssued t (db.step op) ops2 := rfl
    have hrun : db.run (op :: ops2) = (db.step op).run ops2 := rfl
    refine ⟨tb2, ?_, by omega, ?_, ?_⟩
    · rw [hrun]
      exact hr1
    · rw [hiss, List.pairwise_append]
      refine ⟨?_, hr3, ?_⟩
      · rcases hs3 with h0 | ⟨h0, _⟩ <;> rw [h0] <;> simp
      · intro x hx y hy
        rcases hs3 with h0 | ⟨h0, h1⟩
        · rw [h0] at hx
          simp at hx
        · rw [h0] at hx
          simp only [List.mem_singleton] at hx
          subst hx
          have hy2 := hr4 y hy
          omega
    · intro i hi
      rw [hiss] at hi
      rcases List.mem_append.mp hi with hi2 | hi2
      · rcases hs3 with h0 | ⟨h0, h1⟩
        · rw [h0] at hi2
          simp at hi2
        · rw [h0] at hi2
          simp only [List.mem_singleton] at hi2
          subst hi2
          exact ⟨le_refl _, by omega⟩
      · have hb := hr4 i hi2
        omega

/-- C3 is refuted here: from the init-reachable state `maxDb` whose counter
is `u32::MAX = 4294967295`, two consecutive `get_increment_last_id` calls on
the table issue `4294967295` and then `0` — the issued ids are not strictly
increasing — and the final counter `1` is not greater than the issued id
`4294967295`, so the claimed invariant fails at the `u32` wrap. -/
theorem next_id_wrap_reuses :
    runIssued "t" maxDb [Op.nextId "t", Op.nextId "t"] = [4294967295, 0] ∧
    ¬ List.Pairwise (· < ·) (runIssued "t" maxDb [Op.nextId "t", Op.nextId "t"]) ∧
    lookupTable (maxDb.run [Op.nextId "t", Op.nextId "t"]).tables "t"
      = some { next_id := 1, data := [] } ∧
    ¬ (4294967295 < 1) := by
  have he : runIssued "t" maxDb [Op.nextId "t", Op.nextId "t"] = [4294967295, 0] := rfl
  refine ⟨he, ?_, rfl, by omega⟩
  intro hc
  rw [he] at hc
  have h2 := List.pairwise_cons.mp hc
  have h3 := h2.1 0 (by simp)
  omega

/-- C3 (amended): for an existing table and any sequence of store operations
that does not recreate it (no `add_table` with `recreate = true` for that
table), and along which the table's `u32` id counter does not overflow (its
starting value plus the number of `get_increment_last_id` calls on the table
stays below `2^32`), the ids issued by the successful
`get_increment_last_id` calls on it are strictly increasing in call order —
no id is ever repeated, across any interleaving with
`delete_by_id`/`delete_all` — and every issued id stays strictly below the
table's final `next_id` counter.  When the counter does overflow, the `u32`
increment wraps and ids are reused (see the counterexample): the invariant
holds exactly up to `u32` exhaustion. -/
theorem next_id_monotone_no_reuse (db : Db) (t : String) (tb : TableData)
    (ops : List Op) (h : lookupTable db.tables t = some tb)
    (hops : ∀ op ∈ ops, op ≠ Op.addTable t true)
    (hnw : tb.next_id + countNextId t ops < 4294967296) :
    List.Pairwise (· < ·) (runIssued t db ops) ∧
    ∀ i ∈ runIssued t db ops, ∀ tb2,
      lookupTable (db.run ops).tables t = some tb2 → i < tb2.next_id := by
  obtain ⟨tb2, h1, _h2, h3, h4⟩ := run_invariant t ops db tb hops h hnw
  refine ⟨h3, ?_⟩
  intro i hi tb3 h5
  rw [h1] at h5
  have h6 : tb2 = tb3 := Option.some.inj h5
  subst h6
  exact (h4 i hi).2

theorem next_id_monotone_no_reuse_witness :
    List.Pairwise (· < ·)
      (runIssued "t" sampleDb [Op.nextId "t", Op.deleteById "t" 1, Op.nextId "t"]) ∧
    ∀ i ∈ runIssued "t" sampleDb [Op.nextId "t", Op.deleteById "t" 1, Op.nextId "t"],
      ∀ tb2, lookupTable
          (sampleDb.run [Op.nextId "t", Op.deleteById "t" 1, Op.nextId "t"]).tables "t"
          = some tb2 →
        i < tb2.next_id :=
  next_id_monotone_no_reuse sampleDb "t"
    { next_id := 5, data := [(1, Json.str "a"), (3, Json.null)] }
    [Op.nextId "t", Op.deleteById "t" 1, Op.nextId "t"] rfl
    (by
      intro op hop
      simp only [List.mem_cons] at hop
      rcases hop with rfl | rfl | rfl | hop
      · simp
      · simp
      · simp
      · simp at hop)
    (by show 5 + countNextId "t" [Op.nextId "t", Op.deleteById "t" 1, Op.nextId "t"]
          < 4294967296
        norm_num [countNextId, opNextIdCount])

theorem btreeInsert_keys (d : List (Nat × Json)) (k : Nat) (v : Json) :
    ∀ x ∈ (btreeInsert d k v).map Prod.fst, x = k ∨ x ∈ d.map Prod.fst := by
  induction d with
  | nil =>
    intro x hx
    simp [btreeInsert] at hx
    exact Or.inl hx
  | cons p rest ih =>
    obtain ⟨k1, v1⟩ := p
    intro x hx
    simp only [btreeInsert] at hx
    by_cases h1 : k < k1
    · rw [if_pos h1] at hx
      simp only [List.map_cons, List.mem_cons] at hx
      rcases hx with rfl | rfl | hx
      · exact Or.inl rfl
      · exact Or.inr (by simp)
      · exact Or.inr (by simp [hx])
    · rw [if_neg h1] at hx
      by_cases h2 : k = k1
      · rw [if_pos h2] at hx
        simp only [List.map_cons, List.mem_cons] at hx
        rcases hx with rfl | hx
        · exact Or.inl rfl
        · exact Or.inr (by simp [hx])
      · rw [if_neg h2] at hx
        simp only [List.map_cons, List.mem_cons] at hx
        rcases hx with rfl | hx
        · exact Or.inr (by simp)
        · rcases ih x hx with h3 | h3
          · exact Or.inl h3
          · exact Or.inr (by simp [h3])

theorem btreeInsert_pairwise (d : List (Nat × Json)) (k : Nat) (v : Json)
    (h : List.Pairwise (· < ·) (d.map Prod.fst)) :
    List.Pairwise (· < ·) ((btreeInsert d k v).map Prod.fst) := by
  induction d with
  | nil => simp [btreeInsert]
  | cons p rest ih =>
    obtain ⟨k1, v1⟩ := p
    simp only [List.map_cons, List.pairwise_cons] at h
    obtain ⟨hall, hrest⟩ := h
    simp only [btreeInsert]
    by_cases h1 : k < k1
    · rw [if_pos h1]
      simp only [List.map_cons, List.pairwise_cons]
      refine ⟨?_, ?_, hrest⟩
      · intro b hb
        simp only [List.mem_cons] at hb
        rcases hb with rfl | hb
        · exact h1
        · exact lt_trans h1 (hall b hb)
      · exact hall
    · rw [if_neg h1]
      by_cases h2 : k = k1
      · rw [if_pos h2]
        subst h2
        simp only [List.map_cons, List.pairwise_cons]
        exact ⟨hall, hrest⟩
      · rw [if_neg h2]
        simp only [List.map_cons, List.pairwise_cons]
        refine ⟨?_, ih hrest⟩
        intro b hb
        rcases btreeInsert_keys rest k v b hb with rfl | hb2
        · omega
        · exact hall b hb2

theorem btreeRemove_sublist (d : List (Nat × Json)) (k : Nat) :
    List.Sublist (btreeRemove d k) d := by
  induction d with
  | nil => simp [btreeRemove]
  | cons p rest ih =>
    obtain ⟨k1, v1⟩ := p
    simp only [btreeRemove]
    by_cases h : k1 = k
    · rw [if_pos h]
      exact (List.Sublist.refl rest).cons _
    · rw [if_neg h]
      exact ih.cons₂ _

theorem updateTable_keys (ts : List (String × TableData)) (n : String) (td : TableData) :
    (updateTable ts n td).map Prod.fst = ts.map Prod.fst := by
  induction ts with
  | nil => rfl
  | cons p rest ih =>
    obtain ⟨n1, t1⟩ := p
    simp only [updateTable]
    by_cases h : n1 = n
    · rw [if_pos h]
      simp
    · rw [if_neg h]
      simp [ih]

theorem mem_updateTable (ts : List (String × TableData)) (n : String) (td : TableData) :
    ∀ p ∈ updateTable ts n td, p.2 = td ∨ p ∈ ts := by
  induction ts with
  | nil =>
    intro p hp
    simp [updateTable] at hp
  | cons q rest ih =>
    obtain ⟨n1, t1⟩ := q
    intro p hp
    simp only [updateTable] at hp
    by_cases h : n1 = n
    · rw [if_pos h] at hp
      rcases List.mem_cons.mp hp with rfl | hp
      · exact Or.inl rfl
      · exact Or.inr (by simp [hp])
    · rw [if_neg h] at hp
      rcases List.mem_cons.mp hp with rfl | hp
      · exact Or.inr (by simp)
      · rcases ih p hp with h2 | h2
        · exact Or.inl h2
        · exact Or.inr (by simp [h2])

theorem mem_insertTable (ts : List (String × TableData)) (n : String) (td : TableData) :
    ∀ p ∈ insertTable ts n td, p.2 = td ∨ p ∈ ts := by
  intro p hp
  rw [insertTable] at hp
  by_cases h : (lookupTable ts n).isSome
  · rw [if_pos h] at hp
    exact mem_updateTable ts n td p hp
  · rw [if_neg h] at hp
    rcases List.mem_append.mp hp with hp2 | hp2
    · exact Or.inr hp2
    · simp only [List.mem_singleton] at hp2
      subst hp2
      exact Or.inl rfl

theorem insertTable_keys_nodup (ts : List (String × TableData)) (n : String)
    (td : TableData) (h : (ts.map Prod.fst).Nodup) :
    ((insertTable ts n td).map Prod.fst).Nodup := by
  rw [insertTable]
  by_cases hc : (lookupTable ts n).isSome
  · rw [if_pos hc, updateTable_keys]
    exact h
  · rw [if_neg hc, List.map_append]
    rw [List.nodup_append]
    refine ⟨h, by simp, ?_⟩
    intro a ha hb
    simp only [List.map_cons, List.map_nil, List.mem_singleton] at hb
    subst hb
    have hn : lookupTable ts a = none := Option.not_isSome_iff_eq_none.mp hc
    exact (lookupTable_eq_none ts a).mp hn ha

theorem lookupTable_mem (ts : List (String × TableData)) (n : String) (tb : TableData)
    (h : lookupTable ts n = some tb) : (n, tb) ∈ ts := by
  induction ts with
  | nil => simp [lookupTable] at h
  | cons p rest ih =>
    obtain ⟨n1, t1⟩ := p
    rw [lookupTable] at h
    by_cases h1 : n1 = n
    · rw [if_pos h1] at h
      have h2 := Option.some.inj h
      subst h1
      subst h2
      simp
    · rw [if_neg h1] at h
      exact List.mem_cons_of_mem _ (ih h)

theorem wf_updateTable (ts : List (String × TableData)) (n : String) (td : TableData)
    (h1 : (ts.map Prod.fst).Nodup) (h2 : ∀ p ∈ ts, TableData.WF p.2)
    (h3 : td.WF) :
    ((updateTable ts n td).map Prod.fst).Nodup
      ∧ ∀ p ∈ updateTable ts n td, TableData.WF p.2 := by
  refine ⟨by rw [updateTable_keys]; exact h1, ?_⟩
  intro p hp
  rcases mem_updateTable ts n td p hp with he | he
  · rw [he]
    exact h3
  · exact h2 p he

theorem wf_insertTable (ts : List (String × TableData)) (n : String) (td : TableData)
    (h1 : (ts.map Prod.fst).Nodup) (h2 : ∀ p ∈ ts, TableData.WF p.2)
    (h3 : td.WF) :
    ((insertTable ts n td).map Prod.fst).Nodup
      ∧ ∀ p ∈ insertTable ts n td, TableData.WF p.2 := by
  refine ⟨insertTable_keys_nodup ts n td h1, ?_⟩
  intro p hp
  rcases mem_insertTable ts n td p hp with he | he
  · rw [he]
    exact h3
  · exact h2 p he

/-- Every store operation preserves the structural invariant `Db.WF`. -/
theorem wf_step (db : Db) (op : Op) (h : db.WF) : (db.step op).WF := by
  obtain ⟨h1, h2⟩ := h
  cases op with
  | addTable n r =>
    show (db.add_table n r).WF
    rw [Db.add_table]
    by_cases hc : (!r && (lookupTable db.tables n).isSome) = true
    · rw [if_pos hc]
      exact ⟨h1, h2⟩
    · rw [if_neg hc]
      have hw := wf_insertTable db.tables n { next_id := 1, data := [] } h1 h2
        (by show List.Pairwise _ ([] : List Nat); simp)
      exact ⟨hw.1, hw.2⟩
  | nextId n =>
    show ((db.get_increment_last_id n).1).WF
    rw [Db.get_increment_last_id]
    cases hl : lookupTable db.tables n with
    | some tbn =>
      have htbn : TableData.WF tbn := h2 (n, tbn) (lookupTable_mem db.tables n tbn hl)
      have hw := wf_updateTable db.tables n
        { next_id := (tbn.next_id + 1) % 4294967296, data := tbn.data } h1 h2 htbn
      exact ⟨hw.1, hw.2⟩
    | none => exact ⟨h1, h2⟩
  | upsert n id v =>
    show ((db.insert_or_update n id (fun x => x) v).1).WF
    rw [Db.insert_or_update]
    cases hl : lookupTable db.tables n with
    | some tbn =>
      have htbn : TableData.WF tbn := h2 (n, tbn) (lookupTable_mem db.tables n tbn hl)
      have hw := wf_updateTable db.tables n
        { next_id := tbn.next_id, data := btreeInsert tbn.data id v } h1 h2
        (btreeInsert_pairwise tbn.data id v htbn)
      exact ⟨hw.1, hw.2⟩
    | none => exact ⟨h1, h2⟩
  | deleteById n id =>
    show ((db.delete_by_id n id).1).WF
    rw [Db.delete_by_id]
    cases hl : lookupTable db.tables n with
    | some tbn =>
      have htbn : TableData.WF tbn := h2 (n, tbn) (lookupTable_mem db.tables n tbn hl)
      have hw := wf_updateTable db.tables n
        { next_id := tbn.next_id, data := btreeRemove tbn.data id } h1 h2
        (List.Pairwise.sublist ((btreeRemove_sublist tbn.data id).map Prod.fst) htbn)
      exact ⟨hw.1, hw.2⟩
    | none => exact ⟨h1, h2⟩
  | deleteAll n =>
    show ((db.delete_all n).1).WF
    rw [Db.delete_all]
    cases hl : lookupTable db.tables n with
    | some tbn =>
      have hw := wf_updateTable db.tables n
        { next_id := tbn.next_id, data := [] } h1 h2
        (by show List.Pairwise _ ([] : List Nat); simp)
      exact ⟨hw.1, hw.2⟩
    | none => exact ⟨h1, h2⟩

theorem foldl_btreeInsert_wf (entries : List (Nat × Json)) :
    ∀ acc, List.Pairwise (· < ·) (acc.map Prod.fst) →
    List.Pairwise (· < ·)
      ((entries.foldl (fun a p => btreeInsert a p.1 p.2) acc).map Prod.fst) := by
  induction entries with
  | nil =>
    intro acc h
    exact h
  | cons p rest ih =>
    intro acc h
    exact ih _ (btreeInsert_pairwise acc p.1 p.2 h)

theorem deserializeTableData_wf (j : Json) (td : TableData)
    (h : deserializeTableData j = some td) : td.WF := by
  cases j with
  | obj fs =>
    rw [deserializeTableData] at h
    split at h
    · split at h
      · simp at h
      · rw [Option.map_eq_some'] at h
        obtain ⟨entries, _he, htd⟩ := h
        subst htd
        exact foldl_btreeInsert_wf entries [] (by simp)
    · simp at h
  | null => simp [deserializeTableData] at h
  | bool b => simp [deserializeTableData] at h
  | num n => simp [deserializeTableData] at h
  | str s => simp [deserializeTableData] at h
  | arr xs => simp [deserializeTableData] at h

theorem parseTableEntries_wf (fs : List (String × Json)) :
    ∀ entries, parseTableEntries fs = some entries →
    ∀ p ∈ entries, TableData.WF p.2 := by
  induction fs with
  | nil =>
    intro entries h
    rw [parseTableEntries] at h
    have := Option.some.inj h
    subst this
    simp
  | cons q rest ih =>
    obtain ⟨k, v⟩ := q
    intro entries h
    rw [parseTableEntries] at h
    cases hv : deserializeTableData v with
    | none =>
      rw [hv] at h
      simp at h
    | some td =>
      rw [hv] at h
      rw [Option.map_eq_some'] at h
      obtain ⟨l, hl, he⟩ := h
      subst he
      intro p hp
      rcases List.mem_cons.mp hp with rfl | hp2
      · exact deserializeTableData_wf v td hv
      · exact ih l hl p hp2

theorem foldl_insertTable_wf (entries : List (String × TableData)) :
    ∀ acc, (acc.map Prod.fst).Nodup → (∀ p ∈ acc, TableData.WF p.2) →
    (∀ p ∈ entries, TableData.WF p.2) →
    (((entries.foldl (fun a p => insertTable a p.1 p.2) acc).map Prod.fst).Nodup ∧
      ∀ p ∈ entries.foldl (fun a p => insertTable a p.1 p.2) acc, TableData.WF p.2) := by
  induction entries with
  | nil =>
    intro acc h1 h2 _
    exact ⟨h1, h2⟩
  | cons q rest ih =>
    intro acc h1 h2 h3
    have hq := h3 q (by simp)
    have hw := wf_insertTable acc q.1 q.2 h1 h2 hq
    exact ih _ hw.1 hw.2 fun p hp => h3 p (by simp [hp])

/-- `Db.init` establishes the structural invariant `Db.WF`. -/
theorem wf_init (c : Option Json) (db : Db) (h : Db.init c = some db) : db.WF := by
  cases c with
  | none =>
    have := Option.some.inj h
    subst this
    exact ⟨by simp, by simp⟩
  | some doc =>
    simp only [Db.init] at h
    rw [Option.map_eq_some'] at h
    obtain ⟨ts, hts, hdb⟩ := h
    subst hdb
    show (ts.map Prod.fst).Nodup ∧ ∀ p ∈ ts, TableData.WF p.2
    cases doc with
    | obj fs =>
      rw [deserializeTables] at hts
      rw [Option.map_eq_some'] at hts
      obtain ⟨entries, he, hts2⟩ := hts
      subst hts2
      exact foldl_insertTable_wf entries [] (by simp) (by simp)
        (parseTableEntries_wf fs entries he)
    | null => simp [deserializeTables] at hts
    | bool b => simp [deserializeTables] at hts
    | num n => simp [deserializeTables] at hts
    | str s => simp [deserializeTables] at hts
    | arr xs => simp [deserializeTables] at hts

end PoemStore
